import Mathlib

/-!
Verification of the AMF3 byte-level decoder (`src/format.rs`, `src/lib.rs`,
`src/traits.rs`).

Shallow embedding conventions:
* bytes are `Nat` (a byte list models `&[u8]`; theorems that need it restrict
  elements to `< 256`);
* strings are modelled by their UTF-8 byte content (`List Nat`); `&str`
  equality is byte equality;
* `f64` values are kept as their 8 raw little-endian bytes
  (`f64::from_le_bytes` is a bijection on the byte pattern);
* fallible reads return an explicit outcome; a Rust `todo!()` /
  `unimplemented!()` is the `fatal` outcome (process abort, not a catchable
  error);
* the recursive value decoder is fuel-indexed so that it is a total,
  executable function; `nofuel` is the out-of-fuel artifact of the model and
  never corresponds to a real behaviour of the program.
-/

namespace Amf3

/-- Error type of `src/format.rs` (`enum Error`). -/
inductive FError where
  | invalidMarker (b : Nat)
  | stringDecode
  | endOfStream
  | missingStringReference
deriving DecidableEq

/-- Result of running a decoding step: success, a structured error (Rust
`Err`), a process abort (Rust `todo!()` / `unimplemented!()`), or fuel
exhaustion of the model. -/
inductive Outcome (α : Type) where
  | ok : α → Outcome α
  | err : FError → Outcome α
  | fatal : Outcome α
  | nofuel : Outcome α
deriving DecidableEq

/-- State of `format::Deserializer<'de>`: the remaining input bytes and the
string reference table. -/
structure DState where
  input : List Nat
  table : List (List Nat)
deriving DecidableEq

/-- A stateful decoding step (`&mut Deserializer` method returning a value). -/
def M (α : Type) : Type := DState → Outcome (α × DState)

/-- Return without touching the state. -/
def mret (a : α) : M α := fun s => .ok (a, s)

/-- Sequencing; models Rust `?` propagation of `Err` and of panics. -/
def mbind (p : M α) (q : α → M β) : M β := fun s =>
  match p s with
  | .ok (a, s1) => q a s1
  | .err e => .err e
  | .fatal => .fatal
  | .nofuel => .nofuel

/-- Fail with a structured error. -/
def mfail (e : FError) : M α := fun _ => .err e

/-- Abort the process (`todo!()` / `unimplemented!()`). -/
def mfatal : M α := fun _ => .fatal

/-- Lift an infallible-state computation (`Result` not touching the cursor). -/
def liftE (x : Except FError α) : M α := fun s =>
  match x with
  | .ok a => .ok (a, s)
  | .error e => .err e

/-- Model of `Deserializer::read_byte`: next byte of the iterator, or `EndOfStream`. -/
def read_byte : M Nat := fun s =>
  match s.input with
  | [] => .err .endOfStream
  | b :: rest => .ok (b, ⟨rest, s.table⟩)

/-- Model of `Deserializer::read_u29`: the 1-4 byte variable length unsigned integer.
`first & 0x7F` is `first % 0x80`; `value << 7 | x & 0x7F` equals
`value * 0x80 + x % 0x80` because the ored-in bits are disjoint, and
`value << 8 | fourth` equals `value * 0x100 + fourth`; no `u32` overflow is
possible because the result has at most 29 bits. -/
def read_u29 : M Nat :=
  mbind read_byte fun first =>
    if 0x80 ≤ first then
      mbind read_byte fun second =>
        if 0x80 ≤ second then
          mbind read_byte fun third =>
            if 0x80 ≤ third then
              mbind read_byte fun fourth =>
                mret ((((first % 0x80) * 0x80 + second % 0x80) * 0x80
                  + third % 0x80) * 0x100 + fourth)
            else
              mret (((first % 0x80) * 0x80 + second % 0x80) * 0x80 + third % 0x80)
        else
          mret ((first % 0x80) * 0x80 + second % 0x80)
    else
      mret (first % 0x80)

/-- The marker enumeration of `src/format.rs` (18 one-byte tags). -/
inductive Marker where
  | undefined
  | null
  | false'
  | true'
  | integer
  | double
  | string
  | xmlDoc
  | date
  | array
  | object
  | xml
  | byteArray
  | vectorInt
  | vectorUInt
  | vectorDouble
  | vectorObject
  | dictionary
deriving DecidableEq

/-- The `#[repr(u8)]` discriminant of each marker. -/
def Marker.code : Marker → Nat
  | .undefined => 0x00
  | .null => 0x01
  | .false' => 0x02
  | .true' => 0x03
  | .integer => 0x04
  | .double => 0x05
  | .string => 0x06
  | .xmlDoc => 0x07
  | .date => 0x08
  | .array => 0x09
  | .object => 0x0A
  | .xml => 0x0B
  | .byteArray => 0x0C
  | .vectorInt => 0x0D
  | .vectorUInt => 0x0E
  | .vectorDouble => 0x0F
  | .vectorObject => 0x10
  | .dictionary => 0x11

/-- The marker with a given discriminant; only consulted for bytes `< 0x12`
(the guarded `transmute` in `Marker::new`). -/
def Marker.ofByte : Nat → Marker
  | 0x00 => .undefined
  | 0x01 => .null
  | 0x02 => .false'
  | 0x03 => .true'
  | 0x04 => .integer
  | 0x05 => .double
  | 0x06 => .string
  | 0x07 => .xmlDoc
  | 0x08 => .date
  | 0x09 => .array
  | 0x0A => .object
  | 0x0B => .xml
  | 0x0C => .byteArray
  | 0x0D => .vectorInt
  | 0x0E => .vectorUInt
  | 0x0F => .vectorDouble
  | 0x10 => .vectorObject
  | _ => .dictionary

/-- Model of `Marker::new`: bytes `< 0x12` map to the marker with that discriminant,
anything else is `InvalidMarker`. -/
def Marker.new (b : Nat) : Except FError Marker :=
  if b < 0x12 then .ok (Marker.ofByte b) else .error (.invalidMarker b)

/-- Model of `Deserializer::read_marker`. -/
def read_marker : M Marker := mbind read_byte fun b => liftE (Marker.new b)

/-- Model of `Deserializer::read_double` (`try_split_array_ref::<8>`): consume exactly
8 bytes; the `f64` value is kept as those raw little-endian bytes. -/
def read_double : M (List Nat) := fun s =>
  if 8 ≤ s.input.length then
    .ok (s.input.take 8, ⟨s.input.drop 8, s.table⟩)
  else
    .err .endOfStream

/-- Is `c` a UTF-8 continuation byte (`0x80..=0xBF`)? -/
def isCont (c : Nat) : Bool := decide (0x80 ≤ c ∧ c ≤ 0xBF)

/-- UTF-8 validity of a byte sequence, as checked by `std::str::from_utf8`
(RFC 3629: no overlong forms, no surrogates, nothing above U+10FFFF). -/
def utf8Valid : List Nat → Bool
  | [] => true
  | b :: r =>
    if b < 0x80 then utf8Valid r
    else if b < 0xC2 then false
    else if b ≤ 0xDF then
      match r with
      | c :: r2 => isCont c && utf8Valid r2
      | [] => false
    else if b ≤ 0xEF then
      match r with
      | c1 :: c2 :: r2 =>
        (if b = 0xE0 then decide (0xA0 ≤ c1 ∧ c1 ≤ 0xBF)
         else if b = 0xED then decide (0x80 ≤ c1 ∧ c1 ≤ 0x9F)
         else isCont c1) && isCont c2 && utf8Valid r2
      | _ => false
    else if b ≤ 0xF4 then
      match r with
      | c1 :: c2 :: c3 :: r2 =>
        (if b = 0xF0 then decide (0x90 ≤ c1 ∧ c1 ≤ 0xBF)
         else if b = 0xF4 then decide (0x80 ≤ c1 ∧ c1 ≤ 0x8F)
         else isCont c1) && isCont c2 && isCont c3 && utf8Valid r2
      | _ => false
    else false

/-- The part of `Deserializer::read_string` after its `read_u29` header:
by-reference lookup when the low bit is 0, otherwise a length-prefixed
by-value read that appends non-empty strings to the table. (The source
advances the cursor before UTF-8 validation; on the `StringDecode` error path
the whole decode aborts, so discarding that intermediate state is
observationally equal.) -/
def read_string_body (header : Nat) : M (List Nat) := fun s =>
  if header % 2 = 0 then
    match s.table.get? (header / 2) with
    | some str => .ok (str, s)
    | none => .err .missingStringReference
  else if header / 2 ≤ s.input.length then
    if utf8Valid (s.input.take (header / 2)) then
      if s.input.take (header / 2) = [] then
        .ok (s.input.take (header / 2), ⟨s.input.drop (header / 2), s.table⟩)
      else
        .ok (s.input.take (header / 2),
          ⟨s.input.drop (header / 2), s.table ++ [s.input.take (header / 2)]⟩)
    else .err .stringDecode
  else .err .endOfStream

/-- Model of `Deserializer::read_string`. -/
def read_string : M (List Nat) := mbind read_u29 read_string_body

/-- Model of `Deserializer::skip`: `Integer` skips one U29, `Double` skips 8 bytes,
`Undefined` / `Null` / `False` / `True` fall into the `_ => {}` arm, every
other marker is `todo!()`. -/
def skip : M Unit :=
  mbind read_marker fun m =>
    match m with
    | .integer => mbind read_u29 fun _ => mret ()
    | .double => fun s =>
        if 8 ≤ s.input.length then .ok ((), ⟨s.input.drop 8, s.table⟩)
        else .err .endOfStream
    | .string => mfatal
    | .xmlDoc => mfatal
    | .date => mfatal
    | .array => mfatal
    | .object => mfatal
    | .xml => mfatal
    | .byteArray => mfatal
    | .vectorInt => mfatal
    | .vectorUInt => mfatal
    | .vectorDouble => mfatal
    | .vectorObject => mfatal
    | .dictionary => mfatal
    | _ => mret ()

/-- Modelled from the spec: the canonical minimal-length U29 encoding (the
encoder direction is absent from this decoder-only crate). Bit layout per the
format rule documented on `read_u29`: each of up to three leading bytes
carries 7 payload bits below a set continuation bit, and when the third byte
continues, a fourth byte carries a full 8 payload bits. -/
def encodeU29 (v : Nat) : List Nat :=
  if v < 0x80 then [v]
  else if v < 0x4000 then [0x80 + v / 0x80, v % 0x80]
  else if v < 0x200000 then
    [0x80 + v / 0x4000, 0x80 + (v / 0x80) % 0x80, v % 0x80]
  else
    [0x80 + (v / 0x400000) % 0x80, 0x80 + (v / 0x8000) % 0x80,
     0x80 + (v / 0x100) % 0x80, v % 0x100]

/-- A key delivered to the consumer by `ByteDeserializerMap::next_key_seed`:
either a borrowed string key (associative portion) or a `usize` index key
(dense portion). -/
inductive Key where
  | strK (s : List Nat)
  | idxK (n : Nat)
deriving DecidableEq

/-- The generic value tree assembled by a `serde`-style visitor that accepts
every delivery capability of the decoder (`visit_none`, `visit_bool`,
`visit_u32` for the U29 carrier, `visit_f64` kept as raw bytes,
`visit_borrowed_str`, `visit_seq`, `visit_map`). -/
inductive Value where
  | none
  | bool (b : Bool)
  | int (v : Nat)
  | double (bytes : List Nat)
  | str (s : List Nat)
  | seq (elems : List Value)
  | map (entries : List (Key × Value))

mutual

/-- Model of `ByteDeserializer::deserialize_into` driven with the generic visitor
(`deserialize_any`): dispatch on one marker; `XmlDoc`, `Date`, `Object`,
`Xml`, `ByteArray`, the vectors and `Dictionary` are `todo!()`. -/
def deserialize_any : Nat → M Value
  | 0 => fun _ => .nofuel
  | f + 1 =>
    mbind read_marker fun m =>
      match m with
      | .undefined => mret Value.none
      | .null => mret Value.none
      | .false' => mret (Value.bool false)
      | .true' => mret (Value.bool true)
      | .integer => mbind read_u29 fun v => mret (Value.int v)
      | .double => mbind read_double fun b => mret (Value.double b)
      | .string => mbind read_string fun b => mret (Value.str b)
      | .array => deserialize_array f
      | _ => mfatal

/-- Model of `ByteDeserializer::deserialize_array`: read the composite header U29; a
low bit of 0 (array by reference) is `unimplemented!()`; otherwise read one
string and deliver either a dense sequence (empty first key) or an
associative mapping (non-empty first key). -/
def deserialize_array : Nat → M Value
  | 0 => fun _ => .nofuel
  | f + 1 =>
    mbind read_u29 fun header =>
      if header % 2 = 0 then mfatal
      else
        mbind read_string fun first_key =>
          if first_key = [] then
            mbind (seqElements f (header / 2)) fun vs => mret (Value.seq vs)
          else
            mbind (mapEntries f (header / 2) first_key) fun es =>
              mret (Value.map es)

/-- The sequence contract `ByteDeserializerSeq` as driven by a collecting
visitor: `next_element_seed` decodes one element while `len > 0`, then
reports exhaustion. -/
def seqElements : Nat → Nat → M (List Value)
  | _, 0 => mret []
  | 0, _ + 1 => fun _ => .nofuel
  | f + 1, n + 1 =>
    mbind (deserialize_any f) fun v =>
      mbind (seqElements f n) fun vs => mret (v :: vs)

/-- The mapping contract `ByteDeserializerMap` as driven by a collecting
visitor. While `next_key` is non-empty: deliver it as a string key, decode
the value, then read the next key. Once `next_key` is empty: while `len > 0`,
decrement `len` and deliver it as the integer key of a recursively decoded
value. -/
def mapEntries : Nat → Nat → List Nat → M (List (Key × Value))
  | _, 0, [] => mret []
  | 0, _ + 1, [] => fun _ => .nofuel
  | 0, _, _ :: _ => fun _ => .nofuel
  | f + 1, n + 1, [] =>
    mbind (deserialize_any f) fun v =>
      mbind (mapEntries f n []) fun es => mret ((Key.idxK n, v) :: es)
  | f + 1, n, k :: kr =>
    mbind (deserialize_any f) fun v =>
      mbind read_string fun k2 =>
        mbind (mapEntries f n k2) fun es =>
          mret ((Key.strK (k :: kr), v) :: es)

end

/-- The crate entry point `deserialize`: a fresh `ByteDeserializer` (empty
string table) over the input buffer, driven by the generic visitor. -/
def deserialize (f : Nat) (input : List Nat) : Outcome (Value × DState) :=
  deserialize_any f ⟨input, []⟩

/-- Model of `deserialize_ignored_any`: delegate to `skip` and deliver `visit_none`. -/
def deserialize_ignored_any : M Value :=
  mbind skip fun _ => mret Value.none

/-- The integer target widths served by the `VisitInt` dispatch table in
`src/traits.rs`. -/
inductive IntWidth where
  | u8 | u16 | u32 | u64 | i8 | i16 | i32 | i64
deriving DecidableEq

/-- Bit width of an integer target. -/
def IntWidth.bits : IntWidth → Nat
  | .u8 => 8
  | .i8 => 8
  | .u16 => 16
  | .i16 => 16
  | .u32 => 32
  | .i32 => 32
  | .u64 => 64
  | .i64 => 64

/-- Signedness of an integer target. -/
def IntWidth.signed : IntWidth → Bool
  | .u8 => false
  | .u16 => false
  | .u32 => false
  | .u64 => false
  | .i8 => true
  | .i16 => true
  | .i32 => true
  | .i64 => true

/-- Model of `VisitInt::visit_int` for carrier `v : u32` and target `$t`: the Rust
cast `v as $t`, i.e. truncation to the target's bit width, reinterpreted in
two's complement when the target is signed. -/
def visit_int (w : IntWidth) (v : Nat) : Int :=
  if w.signed ∧ 2 ^ (w.bits - 1) ≤ v % 2 ^ w.bits then
    (v % 2 ^ w.bits : Nat) - (2 ^ w.bits : Nat)
  else
    (v % 2 ^ w.bits : Nat)

/-- Predicate `Consumed p T C a T'`: running `p` with table `T` on any input beginning
with the byte block `C` succeeds with result `a`, consumes exactly `C`, and
leaves table `T'`; and on any proper prefix of `C` it fails with
`EndOfStream`. -/
def Consumed {α : Type} (p : M α) (T : List (List Nat)) (C : List Nat)
    (a : α) (T' : List (List Nat)) : Prop :=
  (∀ E, p ⟨C ++ E, T⟩ = .ok (a, ⟨E, T'⟩)) ∧
  (∀ n, n < C.length → p ⟨C.take n, T⟩ = .err .endOfStream)

/-- Predicate `Frames p`: every successful run of `p` is explained by a consumed byte
block in the sense of `Consumed` — the decoder reads a prefix, never looks
past it, and fails with `EndOfStream` on any truncation of that prefix. -/
def Frames {α : Type} (p : M α) : Prop :=
  ∀ I T a R T', p ⟨I, T⟩ = .ok (a, ⟨R, T'⟩) →
    ∃ C, I = C ++ R ∧ Consumed p T C a T'

theorem mbind_eq_of_ok {α β : Type} {p : M α} {q : α → M β} {s : DState}
    {a : α} {s1 : DState} (h : p s = .ok (a, s1)) :
    mbind p q s = q a s1 := by
  unfold mbind
  rw [h]

theorem mbind_ok {α β : Type} {p : M α} {q : α → M β} {s : DState}
    {r : β × DState} :
    mbind p q s = .ok r ↔ ∃ a s1, p s = .ok (a, s1) ∧ q a s1 = .ok r := by
  unfold mbind
  cases h : p s with
  | ok as1 =>
    obtain ⟨a, s1⟩ := as1
    simp only [Outcome.ok.injEq, Prod.mk.injEq]
    constructor
    · intro hq
      exact ⟨a, s1, ⟨rfl, rfl⟩, hq⟩
    · rintro ⟨a2, s2, ⟨rfl, rfl⟩, hq⟩
      exact hq
  | err e => simp
  | fatal => simp
  | nofuel => simp

theorem read_byte_ok {s : DState} {b : Nat} {s1 : DState} :
    read_byte s = .ok (b, s1) ↔ s.input = b :: s1.input ∧ s1.table = s.table := by
  unfold read_byte
  cases h : s.input with
  | nil => simp
  | cons x rest =>
    obtain ⟨i1, t1⟩ := s1
    simp only [Outcome.ok.injEq, Prod.mk.injEq, DState.mk.injEq, List.cons.injEq]
    constructor
    · rintro ⟨rfl, rfl, rfl⟩
      exact ⟨⟨rfl, rfl⟩, rfl⟩
    · rintro ⟨⟨rfl, rfl⟩, rfl⟩
      exact ⟨rfl, rfl, rfl⟩

/-- Lemma: `read_byte` leaves the string table unchanged. -/
theorem read_byte_table {s : DState} {b : Nat} {s1 : DState}
    (h : read_byte s = .ok (b, s1)) : s1.table = s.table :=
  (read_byte_ok.mp h).2

/-- Lemma: `read_u29` leaves the string table unchanged. -/
theorem read_u29_table {s : DState} {v : Nat} {s1 : DState}
    (h : read_u29 s = .ok (v, s1)) : s1.table = s.table := by
  unfold read_u29 at h
  rw [mbind_ok] at h
  obtain ⟨b1, t1, hb1, h⟩ := h
  split at h
  · rw [mbind_ok] at h
    obtain ⟨b2, t2, hb2, h⟩ := h
    split at h
    · rw [mbind_ok] at h
      obtain ⟨b3, t3, hb3, h⟩ := h
      split at h
      · rw [mbind_ok] at h
        obtain ⟨b4, t4, hb4, h⟩ := h
        obtain ⟨rfl, rfl⟩ : v = _ ∧ s1 = t4 := by
          simpa [mret] using h.symm
        rw [read_byte_table hb4, read_byte_table hb3, read_byte_table hb2,
          read_byte_table hb1]
      · obtain ⟨rfl, rfl⟩ : v = _ ∧ s1 = t3 := by
          simpa [mret] using h.symm
        rw [read_byte_table hb3, read_byte_table hb2, read_byte_table hb1]
    · obtain ⟨rfl, rfl⟩ : v = _ ∧ s1 = t2 := by
        simpa [mret] using h.symm
      rw [read_byte_table hb2, read_byte_table hb1]
  · obtain ⟨rfl, rfl⟩ : v = _ ∧ s1 = t1 := by
      simpa [mret] using h.symm
    exact read_byte_table hb1

/-- C6: `read_marker` fails with `InvalidMarker b` for every byte `b ≥ 0x12`,
and for every byte `b < 0x12` it succeeds, consuming one byte, with the
marker whose discriminant is exactly `b`; no out-of-range byte is coerced. -/
theorem c6_marker (b : Nat) (rest : List Nat) (T : List (List Nat)) :
    (0x12 ≤ b → read_marker ⟨b :: rest, T⟩ = .err (.invalidMarker b)) ∧
    (b < 0x12 → ∃ m, read_marker ⟨b :: rest, T⟩ = .ok (m, ⟨rest, T⟩) ∧
      Marker.code m = b) := by
  constructor
  · intro hb
    have : read_byte ⟨b :: rest, T⟩ = .ok (b, ⟨rest, T⟩) := rfl
    rw [read_marker, mbind_eq_of_ok this]
    rw [show Marker.new b = .error (.invalidMarker b) by
      rw [Marker.new, if_neg (by omega)]]
    rfl
  · intro hb
    have hrb : read_byte ⟨b :: rest, T⟩ = .ok (b, ⟨rest, T⟩) := rfl
    refine ⟨Marker.ofByte b, ?_, ?_⟩
    · rw [read_marker, mbind_eq_of_ok hrb]
      rw [show Marker.new b = .ok (Marker.ofByte b) by rw [Marker.new, if_pos hb]]
      rfl
    · interval_cases b <;> rfl

/-- C6 witness: the boundary byte `0x12` is rejected, the byte `0x09` maps to
the `Array` marker with discriminant `0x09`. -/
theorem c6_marker_witness :
    read_marker ⟨[0x12], []⟩ = .err (.invalidMarker 0x12) ∧
    ∃ m, read_marker ⟨[0x09], []⟩ = .ok (m, ⟨[], []⟩) ∧ Marker.code m = 0x09 :=
  ⟨(c6_marker 0x12 [] []).1 (by omega), (c6_marker 0x09 [] []).2 (by omega)⟩

theorem read_byte_cons (b : Nat) (r : List Nat) (T : List (List Nat)) :
    read_byte ⟨b :: r, T⟩ = .ok (b, ⟨r, T⟩) := rfl

/-- C1 counterexample: the claim includes values up to `0x3FFFFFFF`, but the
4-byte form carries only 7+7+7+8 = 29 payload bits. At `0x20000000` the
canonical byte pattern dictated by the format masks the value's top bit away
and `read_u29` returns `0`, not the original value. -/
theorem c1_counterexample :
    encodeU29 0x20000000 = [0x80, 0x80, 0x80, 0x00] ∧
    read_u29 ⟨encodeU29 0x20000000, []⟩ = .ok (0, ⟨[], []⟩) ∧
    (0 : Nat) ≠ 0x20000000 :=
  ⟨rfl, rfl, by omega⟩

/-- C1 (amended): for every value below `0x20000000` — i.e. with the fourth
range capped at `0x1FFFFFFF` — `read_u29` decodes the canonical
minimal-length encoding (1, 2, 3, 4 bytes on the respective ranges,
continuation in the high bit of each of the first three bytes, the fourth
byte a full 8 bits) back to exactly the original value; and no `read_u29`
result on well-formed bytes ever reaches `0x20000000`, so the range
`0x20000000..0x3FFFFFFF` of the original claim is not decodable at all. -/
theorem c1_amended (v : Nat) (T : List (List Nat)) (E : List Nat)
    (hv : v < 0x20000000) :
    read_u29 ⟨encodeU29 v ++ E, T⟩ = .ok (v, ⟨E, T⟩) ∧
    (v < 0x80 → (encodeU29 v).length = 1) ∧
    (0x80 ≤ v → v < 0x4000 → (encodeU29 v).length = 2) ∧
    (0x4000 ≤ v → v < 0x200000 → (encodeU29 v).length = 3) ∧
    (0x200000 ≤ v → (encodeU29 v).length = 4) ∧
    (∀ s r s', (∀ b ∈ s.input, b < 0x100) → read_u29 s = .ok (r, s') →
      r < 0x20000000) := by
  refine ⟨?_, ?_, ?_, ?_, ?_, ?_⟩
  · by_cases h1 : v < 0x80
    · simp only [encodeU29, if_pos h1, List.cons_append, List.nil_append,
        read_u29, mbind, read_byte, mret]
      rw [if_neg (show ¬ 0x80 ≤ v by omega)]
      simp only [mret, Outcome.ok.injEq, Prod.mk.injEq, and_true]
      omega
    · by_cases h2 : v < 0x4000
      · simp only [encodeU29, if_neg h1, if_pos h2, List.cons_append,
          List.nil_append, read_u29, mbind, read_byte, mret]
        rw [if_pos (show 0x80 ≤ 0x80 + v / 0x80 by omega)]
        simp only [mbind, read_byte, mret]
        rw [if_neg (show ¬ 0x80 ≤ v % 0x80 by omega)]
        simp only [mret, Outcome.ok.injEq, Prod.mk.injEq, and_true]
        omega
      · by_cases h3 : v < 0x200000
        · simp only [encodeU29, if_neg h1, if_neg h2, if_pos h3,
            List.cons_append, List.nil_append, read_u29, mbind, read_byte, mret]
          rw [if_pos (show 0x80 ≤ 0x80 + v / 0x4000 by omega)]
          simp only [mbind, read_byte, mret]
          rw [if_pos (show 0x80 ≤ 0x80 + v / 0x80 % 0x80 by omega)]
          simp only [mbind, read_byte, mret]
          rw [if_neg (show ¬ 0x80 ≤ v % 0x80 by omega)]
          simp only [mret, Outcome.ok.injEq, Prod.mk.injEq, and_true]
          omega
        · simp only [encodeU29, if_neg h1, if_neg h2, if_neg h3,
            List.cons_append, List.nil_append, read_u29, mbind, read_byte, mret]
          rw [if_pos (show 0x80 ≤ 0x80 + v / 0x400000 % 0x80 by omega)]
          simp only [mbind, read_byte, mret]
          rw [if_pos (show 0x80 ≤ 0x80 + v / 0x8000 % 0x80 by omega)]
          simp only [mbind, read_byte, mret]
          rw [if_pos (show 0x80 ≤ 0x80 + v / 0x100 % 0x80 by omega)]
          simp only [mbind, read_byte, mret, Outcome.ok.injEq, Prod.mk.injEq,
            and_true]
          omega
  · intro h1
    rw [encodeU29, if_pos h1]
    rfl
  · intro h1 h2
    rw [encodeU29, if_neg (by omega), if_pos h2]
    rfl
  · intro h1 h2
    rw [encodeU29, if_neg (by omega), if_neg (by omega), if_pos h2]
    rfl
  · intro h1
    rw [encodeU29, if_neg (by omega), if_neg (by omega), if_neg (by omega)]
    rfl
  · intro s r s' hbytes h
    rw [read_u29, mbind_ok] at h
    obtain ⟨b1, t1, hb1, h⟩ := h
    obtain ⟨hi1, _⟩ := read_byte_ok.mp hb1
    split at h
    · rw [mbind_ok] at h
      obtain ⟨b2, t2, hb2, h⟩ := h
      obtain ⟨hi2, _⟩ := read_byte_ok.mp hb2
      split at h
      · rw [mbind_ok] at h
        obtain ⟨b3, t3, hb3, h⟩ := h
        obtain ⟨hi3, _⟩ := read_byte_ok.mp hb3
        split at h
        · rw [mbind_ok] at h
          obtain ⟨b4, t4, hb4, h⟩ := h
          obtain ⟨hi4, _⟩ := read_byte_ok.mp hb4
          have hb4lt : b4 < 0x100 := by
            refine hbytes b4 ?_
            rw [hi1, hi2, hi3, hi4]
            simp
          obtain ⟨rfl, rfl⟩ : r = _ ∧ s' = t4 := by
            simpa [mret] using h.symm
          omega
        · obtain ⟨rfl, rfl⟩ : r = _ ∧ s' = t3 := by
            simpa [mret] using h.symm
          omega
      · obtain ⟨rfl, rfl⟩ : r = _ ∧ s' = t2 := by
          simpa [mret] using h.symm
        omega
    · obtain ⟨rfl, rfl⟩ : r = _ ∧ s' = t1 := by
        simpa [mret] using h.symm
      omega

/-- C1 witness: the three-byte range value `0x12345` round-trips through its
canonical 3-byte encoding, in front of trailing input. -/
theorem c1_witness :
    read_u29 ⟨encodeU29 0x12345 ++ [0xFF], []⟩ = .ok (0x12345, ⟨[0xFF], []⟩) ∧
    (encodeU29 0x12345).length = 3 := by
  have h := c1_amended 0x12345 [] [0xFF] (by omega)
  exact ⟨h.1, h.2.2.2.1 (by omega) (by omega)⟩

/-- Evaluation of a by-value `read_string` whose header and length checks
succeed. -/
theorem read_string_eval {s s1 : DState} {header : Nat}
    (h1 : read_u29 s = .ok (header, s1)) (hodd : header % 2 = 1)
    (hlen : header / 2 ≤ s1.input.length)
    (hval : utf8Valid (s1.input.take (header / 2)) = true) :
    read_string s = .ok (s1.input.take (header / 2),
      ⟨s1.input.drop (header / 2),
        if s1.input.take (header / 2) = [] then s1.table
        else s1.table ++ [s1.input.take (header / 2)]⟩) := by
  rw [read_string, mbind_eq_of_ok h1, read_string_body]
  rw [if_neg (by omega), if_pos hlen, if_pos hval]
  split
  · rfl
  · rfl

/-- Evaluation of a by-reference `read_string` whose index resolves. -/
theorem read_string_ref_eval {s s1 : DState} {header : Nat} {str : List Nat}
    (h1 : read_u29 s = .ok (header, s1)) (heven : header % 2 = 0)
    (hget : s1.table.get? (header / 2) = some str) :
    read_string s = .ok (str, s1) := by
  rw [read_string, mbind_eq_of_ok h1, read_string_body]
  rw [if_pos heven, hget]

/-- Inversion of a successful `read_string`: either a by-reference lookup
that leaves the state at the post-header point, or a by-value read that
consumes the announced bytes and appends exactly the non-empty results to
the table. -/
theorem read_string_ok_inv {s : DState} {str : List Nat} {s2 : DState}
    (h : read_string s = .ok (str, s2)) :
    ∃ header s1, read_u29 s = .ok (header, s1) ∧ s1.table = s.table ∧
      ((header % 2 = 0 ∧ s1.table.get? (header / 2) = some str ∧ s2 = s1) ∨
       (header % 2 = 1 ∧ header / 2 ≤ s1.input.length ∧
         str = s1.input.take (header / 2) ∧ utf8Valid str = true ∧
         s2.input = s1.input.drop (header / 2) ∧
         ((str = [] ∧ s2.table = s1.table) ∨
          (str ≠ [] ∧ s2.table = s1.table ++ [str])))) := by
  rw [read_string, mbind_ok] at h
  obtain ⟨header, s1, hu, h⟩ := h
  refine ⟨header, s1, hu, read_u29_table hu, ?_⟩
  rw [read_string_body] at h
  split at h
  · left
    split at h
    · cases h
      exact ⟨by omega, by assumption, rfl⟩
    · cases h
  · right
    split at h
    · split at h
      · split at h
        · cases h
          refine ⟨by omega, by assumption, rfl, by assumption, rfl, ?_⟩
          left
          exact ⟨by assumption, rfl⟩
        · cases h
          refine ⟨by omega, by assumption, rfl, by assumption, rfl, ?_⟩
          right
          exact ⟨by assumption, rfl⟩
      · cases h
    · cases h

/-- C5: a by-value header announcing byte length 0 decodes to the empty
string, leaves the string reference table exactly as it was, and every
`read_string` call preserves the invariant that only non-empty strings are
stored in the table. -/
theorem c5_empty_string (s s1 : DState) (header : Nat)
    (h1 : read_u29 s = .ok (header, s1)) (h2 : header % 2 = 1)
    (h3 : header / 2 = 0) :
    (read_string s = .ok ([], s1) ∧ s1.table = s.table) ∧
    (∀ t st s2, (∀ e ∈ t.table, e ≠ ([] : List Nat)) →
      read_string t = .ok (st, s2) → ∀ e ∈ s2.table, e ≠ []) := by
  constructor
  · constructor
    · have := read_string_eval h1 h2
        (by rw [h3]; exact Nat.zero_le _) (by rw [h3]; rfl)
      rw [h3] at this
      simpa using this
    · exact read_u29_table h1
  · intro t st s2 hinv h e he
    obtain ⟨header', s1', hu', htab', hcase⟩ := read_string_ok_inv h
    rcases hcase with ⟨_, _, rfl⟩ | ⟨_, _, _, _, _, hpush⟩
    · exact hinv e (htab' ▸ he)
    · rcases hpush with ⟨_, htab2⟩ | ⟨hne, htab2⟩
      · exact hinv e (htab' ▸ htab2 ▸ he)
      · rw [htab2, htab'] at he
        rcases List.mem_append.mp he with hmem | hmem
        · exact hinv e hmem
        · intro hcon
          exact hne (by simpa [hcon] using hmem)

/-- C5 witness: the canonical empty-string bytes `[0x01]` decode to the empty
string with an unchanged (empty) table. -/
theorem c5_empty_string_witness :
    read_string ⟨[0x01], []⟩ = .ok ([], ⟨[], []⟩) :=
  ((c5_empty_string ⟨[0x01], []⟩ ⟨[], []⟩ 1 rfl rfl rfl).1).1

/-- C4: a non-empty string decoded by value lands at index
`s.table.length` of the reference table, and any later `read_string` in the
same session (the table having only grown since) whose own U29 header is
`2 * i` (low bit 0, remaining bits `i`) returns the identical string while
consuming only the header bytes. -/
theorem c4_string_reference (s sh s1 : DState) (header : Nat)
    (str : List Nat) (h1 : read_u29 s = .ok (header, sh))
    (hodd : header % 2 = 1) (h3 : read_string s = .ok (str, s1))
    (hne : str ≠ []) :
    s1.table.get? s.table.length = some str ∧
    ∀ s2 s3 : DState, (∃ ext, s2.table = s1.table ++ ext) →
      read_u29 s2 = .ok (2 * s.table.length, s3) →
      read_string s2 = .ok (str, s3) := by
  obtain ⟨header', s1', hu', htab', hcase⟩ := read_string_ok_inv h3
  rw [h1] at hu'
  obtain ⟨rfl, rfl⟩ : header' = header ∧ s1' = sh := by
    injection hu' with h'
    injection h' with ha hs
    exact ⟨ha.symm, hs.symm⟩
  rcases hcase with ⟨heven, _, _⟩ | ⟨_, _, _, _, _, hpush⟩
  · omega
  · rcases hpush with ⟨rfl, _⟩ | ⟨_, htab2⟩
    · exact absurd rfl hne
    have htable : s1.table = s.table ++ [str] := by rw [htab2, htab']
    constructor
    · rw [htable]
      exact List.get?_concat_length s.table str
    · intro s2 s3 ⟨ext, hst⟩ hu2
      refine read_string_ref_eval hu2 (by omega) ?_
      have h30 : s3.table = s2.table := read_u29_table hu2
      rw [h30, hst, htable]
      rw [show 2 * s.table.length / 2 = s.table.length by omega]
      rw [List.get?_append (by simp)]
      exact List.get?_concat_length s.table str

/-- C4 witness: after decoding the one-byte string `"a"` by value, the
by-reference header `[0x00]` (index 0) resolves to the same byte content
while consuming only the header. -/
theorem c4_string_reference_witness :
    read_string ⟨[0x00], [[0x61]]⟩ = .ok ([0x61], ⟨[], [[0x61]]⟩) := by
  have h := c4_string_reference ⟨[0x03, 0x61], []⟩ ⟨[0x61], []⟩
    ⟨[], [[0x61]]⟩ 3 [0x61] rfl rfl rfl (by simp)
  exact h.2 ⟨[0x00], [[0x61]]⟩ ⟨[], [[0x61]]⟩ ⟨[], rfl⟩ rfl

/-- C9: when an Integer marker has been decoded and the U29 carrier `v` read,
the value handed to the consumer at integer target width `w` is `v` reduced
modulo `2^w` reinterpreted at that width: it is congruent to `v` modulo
`2^w`, equals `v mod 2^w` outright for unsigned targets (`v mod 256` for the
8-bit unsigned target), lies in the signed range for signed targets, and no
range error exists on any path. -/
theorem c9_int_cast (w : IntWidth) (v : Nat) (s s1 s2 : DState)
    (_h1 : read_marker s = .ok (.integer, s1))
    (_h2 : read_u29 s1 = .ok (v, s2)) :
    visit_int w v % ((2 ^ w.bits : Nat) : Int) = ((v % 2 ^ w.bits : Nat) : Int) ∧
    (w.signed = false → visit_int w v = ((v % 2 ^ w.bits : Nat) : Int)) ∧
    (w = .u8 → visit_int w v = ((v % 256 : Nat) : Int)) ∧
    (w.signed = true →
      -(((2 ^ (w.bits - 1) : Nat)) : Int) ≤ visit_int w v ∧
      visit_int w v < ((2 ^ (w.bits - 1) : Nat) : Int)) := by
  have hlt : v % 2 ^ w.bits < 2 ^ w.bits := Nat.mod_lt _ (Nat.two_pow_pos _)
  have hb1 : 1 ≤ w.bits := by cases w <;> decide
  have hP : 2 ^ w.bits = 2 * 2 ^ (w.bits - 1) := by
    conv_lhs => rw [show w.bits = (w.bits - 1) + 1 by omega]
    rw [pow_succ]
    ring
  refine ⟨?_, ?_, ?_, ?_⟩
  · rw [visit_int]
    split
    · rw [← Int.emod_eq_sub_self_emod]
      exact Int.emod_eq_of_lt (by positivity) (by exact_mod_cast hlt)
    · exact Int.emod_eq_of_lt (by positivity) (by exact_mod_cast hlt)
  · intro hs
    rw [visit_int, if_neg (by simp [hs])]
  · rintro rfl
    rw [visit_int, if_neg (by simp [IntWidth.signed])]
    norm_num [IntWidth.bits]
  · intro hs
    rw [visit_int]
    split
    · rename_i hc
      obtain ⟨_, hge⟩ := hc
      refine ⟨?_, ?_⟩ <;> omega
    · rename_i hc
      rw [hs] at hc
      have hge : v % 2 ^ w.bits < 2 ^ (w.bits - 1) := by
        rcases Nat.lt_or_ge (v % 2 ^ w.bits) (2 ^ (w.bits - 1)) with h | h
        · exact h
        · exact absurd ⟨rfl, h⟩ hc
      refine ⟨?_, ?_⟩ <;> omega

/-- C9 witness: with the bytes `[0x04, 0x82, 0x2C]` (Integer marker, U29
value 300) and the 8-bit unsigned target, the delivered value is
`300 mod 256 = 44`. -/
theorem c9_int_cast_witness :
    visit_int .u8 300 = ((300 % 256 : Nat) : Int) ∧ visit_int .u8 300 = 44 := by
  have h := c9_int_cast .u8 300 ⟨[0x04, 0x82, 0x2C], []⟩ ⟨[0x82, 0x2C], []⟩
    ⟨[], []⟩ rfl rfl
  exact ⟨h.2.2.1 rfl, by rw [h.2.2.1 rfl]; norm_num⟩

/-- C8 counterexample: `skip` on an `Undefined` marker does not abort — the
`_ => {}` arm returns success having consumed only the marker byte,
contradicting the claim that every marker other than `Integer` and `Double`
aborts the process. -/
theorem c8_counterexample :
    skip ⟨[0x00], []⟩ = .ok ((), ⟨[], []⟩) ∧ skip ⟨[0x00], []⟩ ≠ .fatal :=
  ⟨rfl, by decide⟩

/-- C8 (amended): `skip` consumes one U29 after an `Integer` marker and 8
bytes after a `Double` marker (with `EndOfStream` when fewer than 8 remain);
for `Undefined`, `Null`, `False` and `True` it succeeds consuming only the
marker byte (a no-op skip, since those markers carry no payload); for every
marker from `String` (0x06) through `Dictionary` (0x11) it is unimplemented
and aborts the process fatally; and for the supported markers the
skip-and-ignore request `deserialize_ignored_any` produces the `none`
placeholder. -/
theorem c8_skip_amended (rest : List Nat) (T : List (List Nat)) :
    (skip ⟨0x00 :: rest, T⟩ = .ok ((), ⟨rest, T⟩)) ∧
    (skip ⟨0x01 :: rest, T⟩ = .ok ((), ⟨rest, T⟩)) ∧
    (skip ⟨0x02 :: rest, T⟩ = .ok ((), ⟨rest, T⟩)) ∧
    (skip ⟨0x03 :: rest, T⟩ = .ok ((), ⟨rest, T⟩)) ∧
    (∀ v s', read_u29 ⟨rest, T⟩ = .ok (v, s') →
      skip ⟨0x04 :: rest, T⟩ = .ok ((), s') ∧
      deserialize_ignored_any ⟨0x04 :: rest, T⟩ = .ok (Value.none, s')) ∧
    (8 ≤ rest.length → skip ⟨0x05 :: rest, T⟩ = .ok ((), ⟨rest.drop 8, T⟩) ∧
      deserialize_ignored_any ⟨0x05 :: rest, T⟩ =
        .ok (Value.none, ⟨rest.drop 8, T⟩)) ∧
    (rest.length < 8 → skip ⟨0x05 :: rest, T⟩ = .err .endOfStream) ∧
    (∀ b, 0x06 ≤ b → b < 0x12 → skip ⟨b :: rest, T⟩ = .fatal) := by
  refine ⟨rfl, rfl, rfl, rfl, ?_, ?_, ?_, ?_⟩
  · intro v s' h
    have hm : read_marker ⟨0x04 :: rest, T⟩ = .ok (.integer, ⟨rest, T⟩) := rfl
    have hskip : skip ⟨0x04 :: rest, T⟩ = .ok ((), s') := by
      rw [skip, mbind_eq_of_ok hm]
      show mbind read_u29 (fun _ => mret ()) ⟨rest, T⟩ = .ok ((), s')
      rw [mbind_eq_of_ok h]
      rfl
    refine ⟨hskip, ?_⟩
    rw [deserialize_ignored_any, mbind_eq_of_ok hskip]
    rfl
  · intro h8
    have hm : read_marker ⟨0x05 :: rest, T⟩ = .ok (.double, ⟨rest, T⟩) := rfl
    have hskip : skip ⟨0x05 :: rest, T⟩ = .ok ((), ⟨rest.drop 8, T⟩) := by
      rw [skip, mbind_eq_of_ok hm]
      show (if 8 ≤ rest.length then
          (Outcome.ok (((), ⟨rest.drop 8, T⟩) : Unit × DState))
        else .err .endOfStream) = .ok ((), ⟨rest.drop 8, T⟩)
      rw [if_pos h8]
    refine ⟨hskip, ?_⟩
    rw [deserialize_ignored_any, mbind_eq_of_ok hskip]
    rfl
  · intro h8
    have hm : read_marker ⟨0x05 :: rest, T⟩ = .ok (.double, ⟨rest, T⟩) := rfl
    rw [skip, mbind_eq_of_ok hm]
    show (if 8 ≤ rest.length then
        (Outcome.ok (((), ⟨rest.drop 8, T⟩) : Unit × DState))
      else .err .endOfStream) = .err .endOfStream
    rw [if_neg (by omega)]
  · intro b hb1 hb2
    interval_cases b <;> rfl

/-- C8 witness: skipping `Undefined` succeeds as a no-op, skipping an
`Integer` consumes its U29, `deserialize_ignored_any` delivers the `none`
placeholder, and skipping a `String` marker aborts fatally. -/
theorem c8_skip_witness :
    skip ⟨[0x00], []⟩ = .ok ((), ⟨[], []⟩) ∧
    skip ⟨[0x04, 0x05], []⟩ = .ok ((), ⟨[], []⟩) ∧
    deserialize_ignored_any ⟨[0x04, 0x05], []⟩ = .ok (Value.none, ⟨[], []⟩) ∧
    skip ⟨[0x06, 0x05], []⟩ = .fatal := by
  have h0 := (c8_skip_amended [] []).1
  have h4 := (c8_skip_amended [0x05] []).2.2.2.2.1 5 ⟨[], []⟩ rfl
  have h6 := (c8_skip_amended [0x05] []).2.2.2.2.2.2.2 0x06 (by omega) (by omega)
  exact ⟨h0, h4.1, h4.2, h6⟩

/-- A successful run of the sequence contract delivers exactly as many
elements as the captured dense count. -/
theorem seqElements_length : ∀ f n s vs s',
    seqElements f n s = .ok (vs, s') → vs.length = n := by
  intro f
  induction f with
  | zero =>
    intro n s vs s' h
    cases n with
    | zero =>
      simp only [seqElements, mret, Outcome.ok.injEq, Prod.mk.injEq] at h
      obtain ⟨rfl, rfl⟩ := h
      rfl
    | succ n => simp [seqElements] at h
  | succ f ih =>
    intro n s vs s' h
    cases n with
    | zero =>
      simp only [seqElements, mret, Outcome.ok.injEq, Prod.mk.injEq] at h
      obtain ⟨rfl, rfl⟩ := h
      rfl
    | succ n =>
      simp only [seqElements] at h
      rw [mbind_ok] at h
      obtain ⟨v, s1, hv, h⟩ := h
      rw [mbind_ok] at h
      obtain ⟨vs1, s2, hvs, h⟩ := h
      simp only [mret, Outcome.ok.injEq, Prod.mk.injEq] at h
      obtain ⟨rfl, rfl⟩ := h
      simp [ih n s1 vs1 s2 hvs]

/-- C2: an Array-marker payload whose composite header has low bit 1 with
remaining bits `N` and whose immediately following string decodes as empty
delivers the sequence of exactly `N` recursively decoded elements, in
encoded order. -/
theorem c2_dense_array (f : Nat) (s0 s s1 s2 s3 : DState) (header : Nat)
    (vs : List Value)
    (h0 : read_marker s0 = .ok (.array, s))
    (h1 : read_u29 s = .ok (header, s1)) (h2 : header % 2 = 1)
    (h3 : read_string s1 = .ok ([], s2))
    (h4 : seqElements f (header / 2) s2 = .ok (vs, s3)) :
    deserialize_any (f + 2) s0 = .ok (Value.seq vs, s3) ∧
    deserialize_array (f + 1) s = .ok (Value.seq vs, s3) ∧
    vs.length = header / 2 := by
  have harr : deserialize_array (f + 1) s = .ok (Value.seq vs, s3) := by
    simp only [deserialize_array, mbind_eq_of_ok h1]
    rw [if_neg (by omega)]
    simp only [mbind_eq_of_ok h3]
    rw [if_pos trivial]
    simp only [mbind_eq_of_ok h4, mret]
  refine ⟨?_, harr, seqElements_length f (header / 2) s2 vs s3 h4⟩
  simp only [deserialize_any, mbind_eq_of_ok h0]
  exact harr

/-- C2 witness: the spec's dense-array example decodes to the 3-element
sequence `[1, 2, 3]`. -/
theorem c2_dense_array_witness :
    deserialize 10 [0x09, 0x07, 0x01, 0x04, 1, 0x04, 2, 0x04, 3] =
      .ok (Value.seq [.int 1, .int 2, .int 3], ⟨[], []⟩) ∧
    ([Value.int 1, .int 2, .int 3] : List Value).length = 7 / 2 := by
  have h := c2_dense_array 8
    ⟨[0x09, 0x07, 0x01, 0x04, 1, 0x04, 2, 0x04, 3], []⟩
    ⟨[0x07, 0x01, 0x04, 1, 0x04, 2, 0x04, 3], []⟩
    ⟨[0x01, 0x04, 1, 0x04, 2, 0x04, 3], []⟩
    ⟨[0x04, 1, 0x04, 2, 0x04, 3], []⟩
    ⟨[], []⟩ 7 [.int 1, .int 2, .int 3] rfl rfl rfl rfl rfl
  exact ⟨h.1, h.2.2⟩

/-- The dense phase of the mapping contract (empty `next_key`) delivers the
integer index keys in descending order `n-1, …, 0`. -/
theorem mapEntries_nil_keys : ∀ f n s es s',
    mapEntries f n [] s = .ok (es, s') →
    es.map Prod.fst = ((List.range n).reverse).map Key.idxK := by
  intro f
  induction f with
  | zero =>
    intro n s es s' h
    cases n with
    | zero =>
      simp only [mapEntries, mret, Outcome.ok.injEq, Prod.mk.injEq] at h
      obtain ⟨rfl, rfl⟩ := h
      rfl
    | succ n => simp [mapEntries] at h
  | succ f ih =>
    intro n s es s' h
    cases n with
    | zero =>
      simp only [mapEntries, mret, Outcome.ok.injEq, Prod.mk.injEq] at h
      obtain ⟨rfl, rfl⟩ := h
      rfl
    | succ n =>
      simp only [mapEntries] at h
      rw [mbind_ok] at h
      obtain ⟨v, s1, hv, h⟩ := h
      rw [mbind_ok] at h
      obtain ⟨es1, s2, hes, h⟩ := h
      simp only [mret, Outcome.ok.injEq, Prod.mk.injEq] at h
      obtain ⟨rfl, rfl⟩ := h
      rw [List.range_succ]
      simp [ih n s1 es1 s2 hes]

/-- The associative phase of the mapping contract (non-empty `next_key`)
delivers a block of non-empty string keys headed by the current key, then
hands over to the dense phase. -/
theorem mapEntries_assoc_split : ∀ f n c kr s es s',
    mapEntries f n (c :: kr) s = .ok (es, s') →
    ∃ assoc dense f2 s2, es = assoc ++ dense ∧
      (∃ v assoc', assoc = (Key.strK (c :: kr), v) :: assoc') ∧
      (∀ p ∈ assoc, ∃ str, p.1 = Key.strK str ∧ str ≠ []) ∧
      mapEntries f2 n [] s2 = .ok (dense, s') := by
  intro f
  induction f with
  | zero => intro n c kr s es s' h; simp [mapEntries] at h
  | succ f ih =>
    intro n c kr s es s' h
    simp only [mapEntries] at h
    rw [mbind_ok] at h
    obtain ⟨v, s1, hv, h⟩ := h
    rw [mbind_ok] at h
    obtain ⟨k2, s2, hk2, h⟩ := h
    rw [mbind_ok] at h
    obtain ⟨es1, s3, hes, h⟩ := h
    simp only [mret, Outcome.ok.injEq, Prod.mk.injEq] at h
    obtain ⟨rfl, rfl⟩ := h
    cases k2 with
    | nil =>
      refine ⟨[(Key.strK (c :: kr), v)], es1, f, s2, by simp, ⟨v, [], rfl⟩,
        ?_, hes⟩
      intro p hp
      rw [List.mem_singleton] at hp
      subst hp
      exact ⟨c :: kr, rfl, by simp⟩
    | cons c2 kr2 =>
      obtain ⟨assoc, dense, f2, s4, rfl, ⟨v2, assoc', rfl⟩, hkeys, hdense⟩ :=
        ih n c2 kr2 s2 es1 s3 hes
      refine ⟨(Key.strK (c :: kr), v) :: (Key.strK (c2 :: kr2), v2) :: assoc',
        dense, f2, s4, by simp, ⟨v, _, rfl⟩, ?_, hdense⟩
      intro p hp
      rcases List.mem_cons.mp hp with rfl | hp2
      · exact ⟨c :: kr, rfl, by simp⟩
      · exact hkeys p hp2

/-- C3: an Array-marker payload with dense count `N` whose first decoded key
is non-empty delivers a mapping whose entries are the associative block (all
keys non-empty strings, in encoded order, headed by the first key) followed
by the dense entries keyed by the integer indices in descending order
`N-1, …, 0`, each paired with a recursively decoded value. -/
theorem c3_assoc_array (f : Nat) (s0 s s1 s2 s3 : DState) (header : Nat)
    (k : List Nat) (es : List (Key × Value))
    (h0 : read_marker s0 = .ok (.array, s))
    (h1 : read_u29 s = .ok (header, s1)) (h2 : header % 2 = 1)
    (h3 : read_string s1 = .ok (k, s2)) (hk : k ≠ [])
    (h4 : mapEntries f (header / 2) k s2 = .ok (es, s3)) :
    deserialize_any (f + 2) s0 = .ok (Value.map es, s3) ∧
    deserialize_array (f + 1) s = .ok (Value.map es, s3) ∧
    ∃ assoc dense, es = assoc ++ dense ∧
      (∃ v assoc', assoc = (Key.strK k, v) :: assoc') ∧
      (∀ p ∈ assoc, ∃ str, p.1 = Key.strK str ∧ str ≠ []) ∧
      dense.map Prod.fst = ((List.range (header / 2)).reverse).map Key.idxK := by
  obtain ⟨c, kr, rfl⟩ : ∃ c kr, k = c :: kr := by
    cases k with
    | nil => exact absurd rfl hk
    | cons c kr => exact ⟨c, kr, rfl⟩
  have harr : deserialize_array (f + 1) s = .ok (Value.map es, s3) := by
    simp only [deserialize_array, mbind_eq_of_ok h1]
    rw [if_neg (by omega)]
    simp only [mbind_eq_of_ok h3]
    rw [if_neg (by simp)]
    simp only [mbind_eq_of_ok h4, mret]
  refine ⟨?_, harr, ?_⟩
  · simp only [deserialize_any, mbind_eq_of_ok h0]
    exact harr
  · obtain ⟨assoc, dense, f2, s4, rfl, hhead, hkeys, hdense⟩ :=
      mapEntries_assoc_split f (header / 2) c kr s2 _ s3 h4
    exact ⟨assoc, dense, rfl, hhead, hkeys,
      mapEntries_nil_keys f2 _ s4 dense s3 hdense⟩

/-- C3 witness: the spec's associative example decodes to the mapping
`{"a": 5, "b": 7}` with zero trailing dense entries. -/
theorem c3_assoc_array_witness :
    deserialize 10 [0x09, 0x01, 0x03, 0x61, 0x04, 5, 0x03, 0x62, 0x04, 7, 0x01] =
      .ok (Value.map [(Key.strK [0x61], Value.int 5),
        (Key.strK [0x62], Value.int 7)], ⟨[], [[0x61], [0x62]]⟩) := by
  have h := c3_assoc_array 8
    ⟨[0x09, 0x01, 0x03, 0x61, 0x04, 5, 0x03, 0x62, 0x04, 7, 0x01], []⟩
    ⟨[0x01, 0x03, 0x61, 0x04, 5, 0x03, 0x62, 0x04, 7, 0x01], []⟩
    ⟨[0x03, 0x61, 0x04, 5, 0x03, 0x62, 0x04, 7, 0x01], []⟩
    ⟨[0x04, 5, 0x03, 0x62, 0x04, 7, 0x01], [[0x61]]⟩
    ⟨[], [[0x61], [0x62]]⟩ 1 [0x61]
    [(Key.strK [0x61], Value.int 5), (Key.strK [0x62], Value.int 7)]
    rfl rfl rfl rfl (by simp) rfl
  exact h.1

theorem frames_mret (a : α) : Frames (mret a) := by
  intro I T a' R T' h
  simp only [mret, Outcome.ok.injEq, Prod.mk.injEq, DState.mk.injEq] at h
  obtain ⟨rfl, rfl, rfl⟩ := h
  exact ⟨[], rfl, fun E => rfl, fun n hn => by simp at hn⟩

theorem frames_mfail {α : Type} (e : FError) : Frames (mfail e : M α) := by
  intro I T a R T' h
  simp [mfail] at h

theorem frames_mfatal : Frames (mfatal : M α) := by
  intro I T a R T' h
  simp [mfatal] at h

theorem frames_liftE (x : Except FError α) : Frames (liftE x) := by
  cases x with
  | ok a =>
    intro I T a' R T' h
    simp only [liftE, Outcome.ok.injEq, Prod.mk.injEq, DState.mk.injEq] at h
    obtain ⟨rfl, rfl, rfl⟩ := h
    exact ⟨[], rfl, fun E => rfl, fun n hn => by simp at hn⟩
  | error e =>
    intro I T a R T' h
    simp [liftE] at h

theorem frames_congr {p q : M α} (hpq : ∀ s, p s = q s) (hq : Frames q) :
    Frames p := by
  intro I T a R T' h
  rw [hpq] at h
  obtain ⟨C, hC, hext, htr⟩ := hq I T a R T' h
  exact ⟨C, hC, fun E => by rw [hpq]; exact hext E,
    fun n hn => by rw [hpq]; exact htr n hn⟩

theorem frames_of_nofuel {p : M α} (hp : ∀ s, p s = .nofuel) : Frames p := by
  intro I T a R T' h
  rw [hp] at h
  simp at h

theorem frames_mbind {p : M α} {q : α → M β} (hp : Frames p)
    (hq : ∀ a, Frames (q a)) : Frames (mbind p q) := by
  intro I T b R T' h
  rw [mbind_ok] at h
  obtain ⟨a, sm, hpa, hqb⟩ := h
  obtain ⟨Rm, Tm⟩ := sm
  obtain ⟨C1, hI, hext1, htr1⟩ := hp I T a Rm Tm hpa
  obtain ⟨C2, hRm, hext2, htr2⟩ := hq a Rm Tm b R T' hqb
  subst hI
  subst hRm
  refine ⟨C1 ++ C2, by rw [List.append_assoc], ?_, ?_⟩
  · intro E
    rw [List.append_assoc, mbind_eq_of_ok (hext1 (C2 ++ E))]
    exact hext2 E
  · intro n hn
    rw [List.length_append] at hn
    by_cases hcase : n < C1.length
    · have htk : (C1 ++ C2).take n = C1.take n := by
        rw [List.take_append_eq_append_take,
          Nat.sub_eq_zero_of_le (le_of_lt hcase)]
        simp
      rw [htk]
      have hperr := htr1 n hcase
      unfold mbind
      rw [hperr]
    · push_neg at hcase
      have h2 : n - C1.length < C2.length := by omega
      have htk : (C1 ++ C2).take n = C1 ++ C2.take (n - C1.length) := by
        rw [List.take_append_eq_append_take, List.take_of_length_le hcase]
      rw [htk, mbind_eq_of_ok (hext1 (C2.take (n - C1.length)))]
      exact htr2 (n - C1.length) h2

theorem frames_read_byte : Frames read_byte := by
  intro I T a R T' h
  cases I with
  | nil => simp [read_byte] at h
  | cons b rest =>
    simp only [read_byte, Outcome.ok.injEq, Prod.mk.injEq, DState.mk.injEq] at h
    obtain ⟨rfl, rfl, rfl⟩ := h
    refine ⟨[b], rfl, fun E => rfl, ?_⟩
    intro n hn
    have hn0 : n = 0 := by simpa using hn
    subst hn0
    rfl

theorem frames_read_u29 : Frames read_u29 := by
  unfold read_u29
  apply frames_mbind frames_read_byte
  intro first
  by_cases h1 : 0x80 ≤ first
  · rw [if_pos h1]
    apply frames_mbind frames_read_byte
    intro second
    by_cases h2 : 0x80 ≤ second
    · rw [if_pos h2]
      apply frames_mbind frames_read_byte
      intro third
      by_cases h3 : 0x80 ≤ third
      · rw [if_pos h3]
        exact frames_mbind frames_read_byte fun fourth => frames_mret _
      · rw [if_neg h3]
        exact frames_mret _
    · rw [if_neg h2]
      exact frames_mret _
  · rw [if_neg h1]
    exact frames_mret _

theorem frames_read_marker : Frames read_marker := by
  unfold read_marker
  exact frames_mbind frames_read_byte fun b => frames_liftE _

theorem frames_read_double : Frames read_double := by
  intro I T a R T' h
  simp only [read_double] at h
  split at h
  · rename_i hlen
    simp only [Outcome.ok.injEq, Prod.mk.injEq, DState.mk.injEq] at h
    obtain ⟨rfl, rfl, rfl⟩ := h
    have hC : (I.take 8).length = 8 := by
      rw [List.length_take]
      omega
    refine ⟨I.take 8, (List.take_append_drop 8 I).symm, ?_, ?_⟩
    · intro E
      simp only [read_double]
      rw [if_pos (by rw [List.length_append, hC]; omega)]
      rw [List.take_left' hC, List.drop_left' hC]
    · intro n hn
      rw [hC] at hn
      simp only [read_double]
      rw [if_neg (by simp only [List.length_take]; omega)]
  · simp at h

theorem frames_read_string_body (header : Nat) :
    Frames (read_string_body header) := by
  intro I T a R T' h
  simp only [read_string_body] at h
  split at h
  · rename_i heven
    split at h
    · rename_i str hget
      simp only [Outcome.ok.injEq, Prod.mk.injEq, DState.mk.injEq] at h
      obtain ⟨rfl, rfl, rfl⟩ := h
      refine ⟨[], rfl, ?_, fun n hn => by simp at hn⟩
      intro E
      rw [List.nil_append]
      simp only [read_string_body]
      rw [if_pos heven, hget]
    · simp at h
  · rename_i hodd
    split at h
    · rename_i hlen
      split at h
      · rename_i hval
        split at h
        · rename_i hemp
          simp only [Outcome.ok.injEq, Prod.mk.injEq, DState.mk.injEq] at h
          obtain ⟨rfl, rfl, rfl⟩ := h
          have hv0 : header / 2 = 0 := by
            have hl := congrArg List.length hemp
            simp only [List.length_take, List.length_nil] at hl
            omega
          refine ⟨[], ?_, ?_, fun n hn => by simp at hn⟩
          · rw [List.nil_append, hv0, List.drop_zero]
          · intro E
            rw [List.nil_append, hemp]
            simp only [read_string_body]
            rw [if_neg hodd, hv0]
            simp only [List.take_zero, List.drop_zero]
            rw [if_pos (Nat.zero_le _)]
            rfl
        · rename_i hemp
          simp only [Outcome.ok.injEq, Prod.mk.injEq, DState.mk.injEq] at h
          obtain ⟨rfl, rfl, rfl⟩ := h
          have hC : (I.take (header / 2)).length = header / 2 := by
            rw [List.length_take]
            omega
          refine ⟨I.take (header / 2), (List.take_append_drop _ I).symm, ?_, ?_⟩
          · intro E
            simp only [read_string_body]
            rw [if_neg hodd]
            rw [if_pos (by rw [List.length_append, hC]; omega)]
            rw [List.take_left' hC, List.drop_left' hC]
            rw [if_pos hval, if_neg hemp]
          · intro n hn
            rw [hC] at hn
            simp only [read_string_body]
            rw [if_neg hodd]
            rw [if_neg (by simp only [List.length_take]; omega)]
      · simp at h
    · simp at h

theorem frames_read_string : Frames read_string := by
  unfold read_string
  exact frames_mbind frames_read_u29 frames_read_string_body

/-- Every run of the fuel-indexed decoder reads a prefix of the input,
never looks past it, and fails with `EndOfStream` on any truncation of that
prefix (for all four mutual entry points). -/
theorem frames_decoder : ∀ f,
    Frames (deserialize_any f) ∧ Frames (deserialize_array f) ∧
    (∀ n, Frames (seqElements f n)) ∧
    (∀ n k, Frames (mapEntries f n k)) := by
  intro f
  induction f with
  | zero =>
    refine ⟨?_, ?_, ?_, ?_⟩
    · exact frames_of_nofuel fun s => by simp [deserialize_any]
    · exact frames_of_nofuel fun s => by simp [deserialize_array]
    · intro n
      cases n with
      | zero =>
        refine frames_congr (fun s => ?_) (frames_mret [])
        simp [seqElements, mret]
      | succ n => exact frames_of_nofuel fun s => by simp [seqElements]
    · intro n k
      cases k with
      | nil =>
        cases n with
        | zero =>
          refine frames_congr (fun s => ?_) (frames_mret [])
          simp [mapEntries, mret]
        | succ n => exact frames_of_nofuel fun s => by simp [mapEntries]
      | cons c kr => exact frames_of_nofuel fun s => by simp [mapEntries]
  | succ f ih =>
    obtain ⟨ihAny, ihArr, ihSeq, ihMap⟩ := ih
    refine ⟨?_, ?_, ?_, ?_⟩
    · simp only [deserialize_any]
      apply frames_mbind frames_read_marker
      intro m
      cases m with
      | undefined => exact frames_mret _
      | null => exact frames_mret _
      | false' => exact frames_mret _
      | true' => exact frames_mret _
      | integer => exact frames_mbind frames_read_u29 fun v => frames_mret _
      | double => exact frames_mbind frames_read_double fun b => frames_mret _
      | string => exact frames_mbind frames_read_string fun b => frames_mret _
      | array => exact ihArr
      | xmlDoc => exact frames_mfatal
      | date => exact frames_mfatal
      | object => exact frames_mfatal
      | xml => exact frames_mfatal
      | byteArray => exact frames_mfatal
      | vectorInt => exact frames_mfatal
      | vectorUInt => exact frames_mfatal
      | vectorDouble => exact frames_mfatal
      | vectorObject => exact frames_mfatal
      | dictionary => exact frames_mfatal
    · simp only [deserialize_array]
      apply frames_mbind frames_read_u29
      intro header
      by_cases hh : header % 2 = 0
      · rw [if_pos hh]
        exact frames_mfatal
      · rw [if_neg hh]
        apply frames_mbind frames_read_string
        intro k
        by_cases hk : k = []
        · rw [if_pos hk]
          exact frames_mbind (ihSeq _) fun vs => frames_mret _
        · rw [if_neg hk]
          exact frames_mbind (ihMap _ _) fun es => frames_mret _
    · intro n
      cases n with
      | zero =>
        refine frames_congr (fun s => ?_) (frames_mret [])
        simp [seqElements, mret]
      | succ n =>
        simp only [seqElements]
        exact frames_mbind ihAny fun v =>
          frames_mbind (ihSeq n) fun vs => frames_mret _
    · intro n k
      cases k with
      | nil =>
        cases n with
        | zero =>
          refine frames_congr (fun s => ?_) (frames_mret [])
          simp [mapEntries, mret]
        | succ n =>
          simp only [mapEntries]
          exact frames_mbind ihAny fun v =>
            frames_mbind (ihMap n []) fun es => frames_mret _
      | cons c kr =>
        simp only [mapEntries]
        exact frames_mbind ihAny fun v =>
          frames_mbind frames_read_string fun k2 =>
            frames_mbind (ihMap n k2) fun es => frames_mret _

/-- C10: when a buffer begins with a complete valid encoding of one value
(the decode of `pre` alone succeeds consuming all of it), the top-level
`deserialize` on `pre` followed by arbitrary trailing bytes returns the same
value, leaving exactly the trailing bytes unread — trailing garbage changes
neither the decoded value nor the success of the call. -/
theorem c10_trailing_bytes (f : Nat) (pre ext : List Nat) (v : Value)
    (T' : List (List Nat)) (h : deserialize f pre = .ok (v, ⟨[], T'⟩)) :
    deserialize f (pre ++ ext) = .ok (v, ⟨ext, T'⟩) := by
  obtain ⟨C, hC, hext, _⟩ := (frames_decoder f).1 pre [] v [] T' h
  rw [List.append_nil] at hC
  subst hC
  exact hext ext

/-- C10 witness: `[0x04, 0x05]` decodes to integer 5; appending the invalid
marker byte `0x12` and arbitrary garbage changes nothing. -/
theorem c10_trailing_bytes_witness :
    deserialize 3 ([0x04, 0x05] ++ [0x12, 0xFF]) =
      .ok (Value.int 5, ⟨[0x12, 0xFF], []⟩) :=
  c10_trailing_bytes 3 [0x04, 0x05] [0x12, 0xFF] (Value.int 5) [] rfl

/-- C7 counterexample: the claim quantifies over every buffer that decodes
successfully, but a buffer with trailing bytes (here `[0x02, 0x02]`, boolean
`false` followed by garbage) decodes successfully and still decodes
successfully — not with `EndOfStream` — after its last byte is removed. -/
theorem c7_counterexample :
    deserialize 2 [0x02, 0x02] = .ok (Value.bool false, ⟨[0x02], []⟩) ∧
    deserialize 2 [0x02] = .ok (Value.bool false, ⟨[], []⟩) ∧
    deserialize 2 [0x02] ≠ .err .endOfStream := by
  refine ⟨rfl, rfl, ?_⟩
  intro hcon
  have h2 : deserialize 2 [0x02] = .ok (Value.bool false, ⟨[], []⟩) := rfl
  rw [h2] at hcon
  exact Outcome.noConfusion hcon

/-- C7 (amended): for every buffer that decodes successfully consuming every
one of its bytes (a complete valid encoding with nothing trailing), decoding
the buffer with its last byte removed fails with `EndOfStream` — never with
a different error and never with a successfully decoded value. -/
theorem c7_truncation_amended (f : Nat) (I : List Nat) (v : Value)
    (T' : List (List Nat)) (hne : I ≠ [])
    (h : deserialize f I = .ok (v, ⟨[], T'⟩)) :
    deserialize f I.dropLast = .err .endOfStream := by
  obtain ⟨C, hC, _, htr⟩ := (frames_decoder f).1 I [] v [] T' h
  rw [List.append_nil] at hC
  subst hC
  have hlen : 0 < I.length := List.length_pos.mpr hne
  rw [List.dropLast_eq_take]
  exact htr (I.length - 1) (by omega)

/-- C7 witness: `[0x04, 0x85, 0x22]` (integer 674) consumes its whole
buffer; dropping the final byte yields `EndOfStream`. -/
theorem c7_truncation_witness :
    deserialize 2 [0x04, 0x85, 0x22] = .ok (Value.int 674, ⟨[], []⟩) ∧
    deserialize 2 [0x04, 0x85] = .err .endOfStream := by
  refine ⟨rfl, ?_⟩
  have h := c7_truncation_amended 2 [0x04, 0x85, 0x22] (Value.int 674) []
    (by simp) rfl
  simpa using h

end Amf3
